import Mathlib

/-!
Verification of the logic-programming engine in paip/logic.py: term model,
binding environments, unification, the clause database and the resolution
engine with backtracking.  Recursive Python functions are embedded with an
explicit fuel parameter (`none` = the call does not return within the given
recursion depth); Python dictionaries are association lists.
-/

namespace Paip

/-- Terms of the logic engine: `Atom`, `Var` and `Relation` from logic.py.
`pyNone` stands for the Python value `None`, which `Var.lookup` returns for
an unbound variable. -/
inductive Term : Type where
  | pyNone : Term
  | atom (s : String) : Term
  | var (v : String) : Term
  | rel (pred : String) (args : List Term) : Term

mutual

/-- Decidable structural equality on terms, mirroring the `__eq__` methods of
Atom, Var and Relation (equality across different classes is `False`). -/
def Term.decEq : (a b : Term) → Decidable (a = b)
  | .pyNone, .pyNone => .isTrue rfl
  | .pyNone, .atom _ => .isFalse (fun h => Term.noConfusion h)
  | .pyNone, .var _ => .isFalse (fun h => Term.noConfusion h)
  | .pyNone, .rel _ _ => .isFalse (fun h => Term.noConfusion h)
  | .atom _, .pyNone => .isFalse (fun h => Term.noConfusion h)
  | .atom a, .atom b =>
    match String.decEq a b with
    | .isTrue h => .isTrue (h ▸ rfl)
    | .isFalse h => .isFalse (fun he => h (Term.atom.inj he))
  | .atom _, .var _ => .isFalse (fun h => Term.noConfusion h)
  | .atom _, .rel _ _ => .isFalse (fun h => Term.noConfusion h)
  | .var _, .pyNone => .isFalse (fun h => Term.noConfusion h)
  | .var _, .atom _ => .isFalse (fun h => Term.noConfusion h)
  | .var a, .var b =>
    match String.decEq a b with
    | .isTrue h => .isTrue (h ▸ rfl)
    | .isFalse h => .isFalse (fun he => h (Term.var.inj he))
  | .var _, .rel _ _ => .isFalse (fun h => Term.noConfusion h)
  | .rel _ _, .pyNone => .isFalse (fun h => Term.noConfusion h)
  | .rel _ _, .atom _ => .isFalse (fun h => Term.noConfusion h)
  | .rel _ _, .var _ => .isFalse (fun h => Term.noConfusion h)
  | .rel p as, .rel q bs =>
    match String.decEq p q with
    | .isFalse h => .isFalse (fun he => h (Term.rel.inj he).1)
    | .isTrue h =>
      match Term.decEqArgs as bs with
      | .isFalse h2 => .isFalse (fun he => h2 (Term.rel.inj he).2)
      | .isTrue h2 => .isTrue (by rw [h, h2])

/-- Decidable equality on argument lists of terms. -/
def Term.decEqArgs : (as bs : List Term) → Decidable (as = bs)
  | [], [] => .isTrue rfl
  | [], _ :: _ => .isFalse (fun h => List.noConfusion h)
  | _ :: _, [] => .isFalse (fun h => List.noConfusion h)
  | a :: as, b :: bs =>
    match Term.decEq a b with
    | .isFalse h1 => .isFalse (fun he => h1 (List.cons.inj he).1)
    | .isTrue h1 =>
      match Term.decEqArgs as bs with
      | .isFalse h2 => .isFalse (fun he => h2 (List.cons.inj he).2)
      | .isTrue h2 => .isTrue (by rw [h1, h2])

end

instance : DecidableEq Term := Term.decEq

/-- A clause `head :- body` (class Clause in logic.py). -/
structure Clause : Type where
  head : Term
  body : List Term
deriving DecidableEq

/-- A binding environment: a Python dict keyed by `Var`.  Variables compare
by name, so keys are variable names; `unify` only ever installs variables as
keys. -/
abbrev Bindings : Type := List (String × Term)

/-- Embedding of `bindings.get(v)` for a variable key. -/
def getB (b : Bindings) (v : String) : Option Term :=
  (List.find? (fun p => p.1 == v) b).map (fun p => p.2)

mutual

/-- Embedding of `get_vars` of Atom/Var/Relation: all variables, duplicates removed,
first-seen order. -/
def Term.getVars : Term → List String
  | .pyNone => []
  | .atom _ => []
  | .var v => [v]
  | .rel _ args => Term.getVarsArgs args []

/-- The accumulation loop of `Relation.get_vars`:
`vars.extend(v for v in arg.get_vars() if v not in vars)` over a list of
arguments, starting from the accumulator `acc`. -/
def Term.getVarsArgs : List Term → List String → List String
  | [], acc => acc
  | a :: rest, acc =>
    Term.getVarsArgs rest (acc ++ (Term.getVars a).filter (fun v => decide (v ∉ acc)))

end

mutual

/-- Embedding of `rename_vars` of Atom/Var/Relation: replace each variable by its value in
`m` if it appears as a key (`replacements.get(self, self)`). -/
def Term.renameVars (m : List (String × Term)) : Term → Term
  | .var v => (getB m v).getD (.var v)
  | .rel p args => .rel p (Term.renameVarsArgs m args)
  | t => t

/-- Embedding of `Relation.rename_vars`: rename each argument in order. -/
def Term.renameVarsArgs (m : List (String × Term)) : List Term → List Term
  | [] => []
  | a :: rest => Term.renameVars m a :: Term.renameVarsArgs m rest

end

/-- Embedding of `Clause.get_vars`: the head's variables, extended with each body
relation's unseen variables. -/
def Clause.getVars (c : Clause) : List String :=
  Term.getVarsArgs c.body (Term.getVars c.head)

/-- Embedding of `Clause.rename_vars`: rename head and body. -/
def Clause.renameVars (m : List (String × Term)) (c : Clause) : Clause :=
  ⟨Term.renameVars m c.head, Term.renameVarsArgs m c.body⟩

/-- Embedding of `Clause.recursive_rename`: replace each variable of the clause with a
fresh one minted from the global counter (`Var.get_unused_var` names them
`var0`, `var1`, ...).  The Python counter is global state; here it enters as
the argument `ctr`, and the caller advances it by the number of variables
renamed. -/
def Clause.recursiveRename (c : Clause) (ctr : Nat) : Clause :=
  let vs := c.getVars
  let m := vs.enum.map (fun p => (p.2, Term.var ("var" ++ toString (ctr + p.1))))
  c.renameVars m

/-- The `while` loop of `Var.lookup`: follow `binding` through the bindings
dictionary while it is a bound variable whose next binding has not been
encountered yet.  The Python loop carries no fuel; the fuel here is an upper
bound on the iteration count, and `walkChain_total` below proves that the
`none` (fuel exhausted) branch is unreachable for the bound used by
`lookupBind`, so the embedding agrees with the unbounded loop. -/
def walkChainAux : Nat → Bindings → Term → List Term → Option Term
  | 0, _, _, _ => none
  | n + 1, b, binding, enc =>
    match binding with
    | .var s =>
      match getB b s with
      | some next =>
        if next ∈ enc then some binding
        else walkChainAux n b next (enc ++ [next])
      | none => some binding
    | t => some t

/-- Tags for the mutually recursive pair `Var.lookup` / `Relation.bind_vars`
(they call each other, so they are embedded as one fuel-indexed function). -/
inductive LBCall : Type where
  | lk (v : String) : LBCall
  | bv (t : Term) : LBCall

/-- Embedding of `Var.lookup` (`.lk v`) and `Relation.bind_vars` (`.bv t`) from logic.py.
`some .pyNone` is Python's `None` result for an unbound variable; `none`
means the call does not return within fuel `n` (the two methods can recurse
into each other forever when a variable is bound to a relation that
transitively contains it). -/
def lookupBind : Nat → LBCall → Bindings → Option Term
  | 0, _, _ => none
  | n + 1, .lk v, b =>
    let b0 := (getB b v).getD .pyNone
    match walkChainAux (b.length + 1) b b0 [.var v, b0] with
    | none => none
    | some fin =>
      match fin with
      | .rel p args => lookupBind n (.bv (.rel p args)) b
      | t => some t
  | n + 1, .bv (.rel p args), b =>
    (args.mapM (fun (a : Term) =>
      (match a with
       | .var s => if (getB b s).isSome then lookupBind n (.lk s) b else some a
       | a => some a : Option Term))).map (fun bound => Term.rel p bound)
  | _ + 1, .bv _, _ => none

/-- Embedding of `Var.lookup(bindings)`. -/
def Term.lookup (n : Nat) (v : String) (b : Bindings) : Option Term :=
  lookupBind n (.lk v) b

/-- Embedding of `Relation.bind_vars(bindings)`. -/
def Term.bindVars (n : Nat) (t : Term) (b : Bindings) : Option Term :=
  lookupBind n (.bv t) b

/-- Embedding of `Clause.bind_vars(bindings)`: substitute into the head and each body
relation. -/
def Clause.bindVars (n : Nat) (c : Clause) (b : Bindings) : Option Clause := do
  let h ← lookupBind n (.bv c.head) b
  let bd ← c.body.mapM (fun r => lookupBind n (.bv r) b)
  pure ⟨h, bd⟩

/-- One step of the argument-unification loop of `unify` on Relations:
`bindings = unify(xi, yi, bindings); if bindings == False: return False`. -/
def ustep (f : Term → Term → Option Bindings → Option (Option Bindings))
    (acc : Option (Option Bindings)) (pr : Term × Term) : Option (Option Bindings) :=
  match acc with
  | some (some b) => f pr.1 pr.2 (some b)
  | other => other

/-- Embedding of `unify(x, y, bindings)` from logic.py, fuel-indexed.  The environment
argument is `none` for Python's `False` (failure sentinel); the result is
`none` when the call does not return within fuel `n`, `some none` for
`False`, and `some (some b)` for an environment.  The Clause–Clause branch
of the Python function is outside the term model (clauses are not terms)
and is not needed by the engine, which only unifies a goal relation with a
clause head. -/
def unify : Nat → Term → Term → Option Bindings → Option (Option Bindings)
  | 0, _, _, _ => none
  | n + 1, x, y, ob =>
    match ob with
    | none => some none
    | some b =>
      if x = y then some (some b)
      else
        match x, y with
        | .var v, y =>
          (match getB b v with
           | some t => unify n t y (some b)
           | none =>
             match y with
             | .var w =>
               (match getB b w with
                | some t2 => unify n x t2 (some b)
                | none => some (some ((v, y) :: b)))
             | _ => some (some ((v, y) :: b)))
        | x, .var w => unify n (.var w) x (some b)
        | .rel p as, .rel q bs =>
          if p ≠ q then some none
          else if as.length ≠ bs.length then some none
          else (as.zip bs).foldl (ustep (unify n)) (some (some b))
        | _, _ => some none

/-- The argument loop of `unify` as a named function (definitionally the
`foldl` used inside `unify`), for stating lemmas. -/
def unifyList (f : Term → Term → Option Bindings → Option (Option Bindings))
    (ps : List (Term × Term)) (acc : Option (Option Bindings)) : Option (Option Bindings) :=
  ps.foldl (ustep f) acc

/-- The uniform database: a dict from predicate name to a list of clauses.
The Python database may also store a native procedure under a name
(`define_procedure`); the only such procedure in the core is
`display_bindings`, modeled separately below, so database entries here are
clause lists. -/
abbrev Db : Type := List (String × List Clause)

/-- Embedding of `db.get(pred)`. -/
def dbGet (db : Db) (p : String) : Option (List Clause) :=
  (List.find? (fun e => e.1 == p) db).map (fun e => e.2)

/-- Embedding of `retrieve(db, pred)`, i.e. `db.setdefault(pred, [])`: returns the clause
list for `pred`, inserting an empty list under `pred` first when the key is
absent.  The Python function mutates `db`; here the updated dict is returned
alongside the result. -/
def retrieve (db : Db) (p : String) : List Clause × Db :=
  match dbGet db p with
  | some cs => (cs, db)
  | none => ([], db ++ [(p, [])])

/-- Tags for the mutually recursive triple `prove` / `prove_all` / the
candidate-clause loop inside `prove`, embedded as one fuel-indexed
function. -/
inductive PCall : Type where
  | prove (goal : Term) (ob : Option Bindings) (remaining : List Term) : PCall
  | proveAll (goals : List Term) (ob : Option Bindings) : PCall
  | clauses (cs : List Clause) (goal : Term) (env : Bindings) (remaining : List Term) : PCall

/-- The resolution engine of logic.py: `prove(goal, bindings, db, remaining)`
(`.prove`), `prove_all(goals, bindings, db)` (`.proveAll`) and the
`for clause in query` loop of `prove` (`.clauses`).  The global variable
counter `Var.counter` used by `recursive_rename` is threaded through as
`ctr` and returned with the result.  `none` means the call does not return
within fuel `n`; the environment component is `none` for Python's `False`.
A non-Relation goal raises AttributeError in Python (no `.pred`); that
branch is modeled as no result. -/
def engine : Nat → PCall → Db → Nat → Option (Option Bindings × Nat)
  | 0, _, _, _ => none
  | n + 1, .prove goal ob remaining, db, ctr =>
    match ob with
    | none => some (none, ctr)
    | some env =>
      match goal with
      | .rel pred _ =>
        match dbGet db pred with
        | none => some (none, ctr)
        | some [] => some (none, ctr)
        | some (c :: cs) => engine n (.clauses (c :: cs) goal env remaining) db ctr
      | _ => none
  | n + 1, .proveAll gs ob, db, ctr =>
    match ob with
    | none => some (none, ctr)
    | some env =>
      match gs with
      | [] => some (some env, ctr)
      | g :: rest => engine n (.prove g (some env) rest) db ctr
  | n + 1, .clauses cs goal env remaining, db, ctr =>
    match cs with
    | [] => some (none, ctr)
    | c :: rest =>
      let renamed := c.recursiveRename ctr
      let ctr1 := ctr + c.getVars.length
      match unify n goal renamed.head (some env) with
      | none => none
      | some none => engine n (.clauses rest goal env remaining) db ctr1
      | some (some unified) =>
        match Clause.bindVars n renamed unified with
        | none => none
        | some renamed2 =>
          if renamed2.head ∈ renamed2.body then
            engine n (.clauses rest goal env remaining) db ctr1
          else
            match engine n (.proveAll (renamed2.body ++ remaining) (some unified)) db ctr1 with
            | none => none
            | some (none, ctr2) => engine n (.clauses rest goal env remaining) db ctr2
            | some (some ext, ctr2) => some (some ext, ctr2)

/-- Embedding of `prove(goal, bindings, db, remaining)`. -/
def prove (n : Nat) (goal : Term) (ob : Option Bindings) (db : Db)
    (remaining : List Term) (ctr : Nat) : Option (Option Bindings × Nat) :=
  engine n (.prove goal ob remaining) db ctr

/-- Embedding of `prove_all(goals, bindings, db)`. -/
def proveAll (n : Nat) (goals : List Term) (ob : Option Bindings) (db : Db)
    (ctr : Nat) : Option (Option Bindings × Nat) :=
  engine n (.proveAll goals ob) db ctr

/-- The candidate-clause loop of `prove`. -/
def proveClauses (n : Nat) (cs : List Clause) (goal : Term) (env : Bindings)
    (db : Db) (remaining : List Term) (ctr : Nat) : Option (Option Bindings × Nat) :=
  engine n (.clauses cs goal env remaining) db ctr

/-- Python's `str.strip()`: remove leading and trailing whitespace. -/
def pyStrip (s : String) : String :=
  ⟨((s.data.dropWhile Char.isWhitespace).reverse.dropWhile Char.isWhitespace).reverse⟩

/-- Python's `str.lower()` (ASCII range, which covers the answers the code
compares against). -/
def pyLower (s : String) : String :=
  ⟨s.data.map Char.toLower⟩

/-- Embedding of `display_bindings(vars, bindings, db, remaining)` from logic.py.  The
printing is I/O and carries no data, but each variable printed is
dereferenced via `Var.lookup`, which can fail to return; those lookups are
performed first.  `response` is the driver's answer read by
`raw_input('Continue? ')`: the code treats a stripped, lowercased answer of
`yes` or `y` (continue searching) by returning `False`, and any other answer
(stop) by proving the remaining goals via `prove_all(remaining, bindings,
db)` and returning that result. -/
def displayBindings (n : Nat) (response : String) (vars : List Term)
    (bindings : Bindings) (db : Db) (remaining : List Term) (ctr : Nat) :
    Option (Option Bindings × Nat) :=
  match vars.mapM (fun (v : Term) =>
      (match v with
       | .var s => Term.lookup n s bindings
       | _ => none : Option Term)) with
  | none => none
  | some _ =>
    if pyLower (pyStrip response) == "yes" || pyLower (pyStrip response) == "y" then
      some (none, ctr)
    else
      proveAll n remaining (some bindings) db ctr

/-!
A second embedding of `unify` at the level of Python's object heap, used for
the frame property: binding environments are dicts on a heap (`Store`), and
an environment argument or result is an address into it.  This makes the
`bindings = dict(bindings)` copy and the `bindings[x] = y` dict mutation
explicit: the copy allocates a fresh address, and the only address ever
mutated is that fresh copy.
-/

/-- The heap of environment dicts; an address is an index. -/
abbrev Store : Type := List Bindings

/-- One step of the argument-unification loop of `unify`, heap version. -/
def ustepS (f : Term → Term → Option Nat → Store → Option (Option Nat × Store))
    (acc : Option (Option Nat × Store)) (pr : Term × Term) : Option (Option Nat × Store) :=
  match acc with
  | some (some ad, st) => f pr.1 pr.2 (some ad) st
  | other => other

/-- Embedding of `unify(x, y, bindings)` with the environment passed by reference:
`oa` is `none` for Python's `False` and `some a` for the dict at address `a`.
On entry the dict is copied to a fresh address (`bindings = dict(bindings)`);
`bindings[x] = y` mutates only that fresh copy. -/
def unifyStore : Nat → Term → Term → Option Nat → Store → Option (Option Nat × Store)
  | 0, _, _, _, _ => none
  | n + 1, x, y, oa, s =>
    match oa with
    | none => some (none, s)
    | some a =>
      let b := (s[a]?).getD []
      let a1 := s.length
      let s1 := s ++ [b]
      if x = y then some (some a1, s1)
      else
        match x, y with
        | .var v, y =>
          (match getB b v with
           | some t => unifyStore n t y (some a1) s1
           | none =>
             match y with
             | .var w =>
               (match getB b w with
                | some t2 => unifyStore n x t2 (some a1) s1
                | none => some (some a1, s1.set a1 ((v, y) :: b)))
             | _ => some (some a1, s1.set a1 ((v, y) :: b)))
        | x, .var w => unifyStore n (.var w) x (some a1) s1
        | .rel p as, .rel q bs =>
          if p ≠ q then some (none, s1)
          else if as.length ≠ bs.length then some (none, s1)
          else (as.zip bs).foldl (ustepS (unifyStore n)) (some (some a1, s1))
        | _, _ => some (none, s1)

/-- Relation stating that `s'` preserves every dict that exists in `s` (same address, same
content); new dicts may have been appended. -/
def storeExtends (s s' : Store) : Prop :=
  s.length ≤ s'.length ∧ ∀ i, i < s.length → s'[i]? = s[i]?

/-- Statement that `Var.lookup` never returns on this input, at any recursion depth. -/
def lookupDiverges (v : String) (b : Bindings) : Prop :=
  ∀ n, Term.lookup n v b = none

/-- Statement that `unify` never returns on this input, at any recursion depth. -/
def unifyDiverges (x y : Term) (ob : Option Bindings) : Prop :=
  ∀ n, unify n x y ob = none

/-- Statement that `prove` never succeeds on this input: at every recursion depth it either
fails or does not return. -/
def proveCannotSucceed (goal : Term) (ob : Option Bindings) (db : Db)
    (remaining : List Term) (ctr : Nat) : Prop :=
  ∀ n r c, prove n goal ob db remaining ctr ≠ some (some r, c)

end Paip

namespace Paip

/-! ## General lemmas -/

/-- Appending a fresh encountered element strictly shrinks the pool of
binding values not yet encountered. -/
theorem filter_notMem_append_length_lt (l enc : List Term) (x : Term)
    (hx : x ∈ l) (hnx : x ∉ enc) :
    (l.filter (fun t => decide (t ∉ enc ++ [x]))).length <
      (l.filter (fun t => decide (t ∉ enc))).length := by
  have himp : ∀ t : Term, (fun t => decide (t ∉ enc ++ [x])) t = true →
      (fun t => decide (t ∉ enc)) t = true := by
    intro t ht
    simp only [decide_eq_true_eq] at ht ⊢
    intro hmem
    exact ht (List.mem_append_left _ hmem)
  have hsub := List.monotone_filter_right l himp
  rcases Nat.lt_or_ge (l.filter (fun t => decide (t ∉ enc ++ [x]))).length
      (l.filter (fun t => decide (t ∉ enc))).length with hlt | hge
  · exact hlt
  · exfalso
    have heq : l.filter (fun t => decide (t ∉ enc ++ [x])) =
        l.filter (fun t => decide (t ∉ enc)) :=
      hsub.eq_of_length (Nat.le_antisymm hsub.length_le hge)
    have hxin : x ∈ l.filter (fun t => decide (t ∉ enc)) := by
      rw [List.mem_filter]
      exact ⟨hx, by simpa using hnx⟩
    rw [← heq, List.mem_filter] at hxin
    have := hxin.2
    simp at this

/-- A value found by `getB` is one of the dict's values. -/
theorem getB_mem_values {b : Bindings} {s : String} {t : Term}
    (h : getB b s = some t) : t ∈ b.map Prod.snd := by
  unfold getB at h
  rcases Option.map_eq_some'.mp h with ⟨p, hfind, hp⟩
  subst hp
  exact List.mem_map_of_mem _ (List.mem_of_find?_eq_some hfind)

/-- The dereferencing `while` loop of `Var.lookup` always terminates: with
fuel exceeding the number of not-yet-encountered binding values, it returns
a term. -/
theorem walkChainAux_total :
    ∀ (n : Nat) (b : Bindings) (binding : Term) (enc : List Term),
      ((b.map Prod.snd).filter (fun t => decide (t ∉ enc))).length < n →
      ∃ t, walkChainAux n b binding enc = some t := by
  intro n
  induction n with
  | zero => intro b binding enc h; omega
  | succ n ih =>
    intro b binding enc h
    cases binding with
    | var s =>
      cases hg : getB b s with
      | none => exact ⟨.var s, by simp [walkChainAux, hg]⟩
      | some next =>
        by_cases hmem : next ∈ enc
        · exact ⟨.var s, by simp [walkChainAux, hg, hmem]⟩
        · have hlt := filter_notMem_append_length_lt (b.map Prod.snd) enc next
            (getB_mem_values hg) hmem
          have hrec := ih b next (enc ++ [next]) (by omega)
          rcases hrec with ⟨t, ht⟩
          exact ⟨t, by simp [walkChainAux, hg, hmem, ht]⟩
    | pyNone => exact ⟨.pyNone, rfl⟩
    | atom s => exact ⟨.atom s, rfl⟩
    | rel p args => exact ⟨.rel p args, rfl⟩

/-- The fuel `lookupBind` gives the chain walk is always sufficient: the
walk returns for every binding environment (claim C2's cycle guard works
for chains of variable bindings). -/
theorem walkChain_total (b : Bindings) (binding : Term) (enc : List Term) :
    ∃ t, walkChainAux (b.length + 1) b binding enc = some t := by
  apply walkChainAux_total
  calc ((b.map Prod.snd).filter (fun t => decide (t ∉ enc))).length
      ≤ (b.map Prod.snd).length := List.length_filter_le _ _
    _ = b.length := List.length_map _ _
    _ < b.length + 1 := Nat.lt_succ_self _

/-- An argument loop started from a failed accumulator stays failed. -/
theorem unifyList_noneAcc (f : Term → Term → Option Bindings → Option (Option Bindings))
    (ps : List (Term × Term)) : unifyList f ps none = none := by
  induction ps with
  | nil => rfl
  | cons p ps ih => simpa [unifyList, ustep, List.foldl_cons] using ih

/-- The argument loop is monotone under a pointwise-monotone step
function. -/
theorem unifyList_mono_of {f g : Term → Term → Option Bindings → Option (Option Bindings)}
    (hfg : ∀ a c ob s, f a c ob = some s → g a c ob = some s) :
    ∀ (ps : List (Term × Term)) (acc : Option (Option Bindings)) (r : Option Bindings),
      unifyList f ps acc = some r → unifyList g ps acc = some r := by
  intro ps
  induction ps with
  | nil => intro acc r h; exact h
  | cons p ps ih =>
    intro acc r h
    rw [unifyList, List.foldl_cons] at h ⊢
    cases acc with
    | none => exact ih none r h
    | some ob2 =>
      cases ob2 with
      | none => exact ih (some none) r h
      | some b =>
        simp only [ustep] at h ⊢
        cases hf : f p.1 p.2 (some b) with
        | none =>
          rw [hf] at h
          rw [show (List.foldl (ustep f) none ps) = unifyList f ps none from rfl,
            unifyList_noneAcc] at h
          exact absurd h (by simp)
        | some s =>
          rw [hf] at h
          rw [hfg p.1 p.2 (some b) s hf]
          exact ih (some s) r h

/-- Fuel monotonicity of `unify`: a call that returns keeps returning the same
value with more fuel. -/
theorem unify_mono : ∀ {n : Nat} {x y : Term} {ob : Option Bindings} {r : Option Bindings},
    unify n x y ob = some r → unify (n + 1) x y ob = some r := by
  intro n
  induction n with
  | zero => intro x y ob r h; simp [unify] at h
  | succ n ih =>
    intro x y ob r h
    cases ob with
    | none => simpa [unify] using h
    | some b =>
      by_cases hxy : x = y
      · subst hxy; simpa [unify] using h
      · cases x with
        | var v =>
          cases hg : getB b v with
          | some t =>
            rw [show unify (n + 1) (.var v) y (some b) = unify n t y (some b) by
              simp [unify, hxy, hg]] at h
            rw [show unify (n + 1 + 1) (.var v) y (some b) = unify (n + 1) t y (some b) by
              simp [unify, hxy, hg]]
            exact ih h
          | none =>
            cases y with
            | var w =>
              cases hg2 : getB b w with
              | some t2 =>
                rw [show unify (n + 1) (.var v) (.var w) (some b)
                    = unify n (.var v) t2 (some b) by simp [unify, hxy, hg, hg2]] at h
                rw [show unify (n + 1 + 1) (.var v) (.var w) (some b)
                    = unify (n + 1) (.var v) t2 (some b) by simp [unify, hxy, hg, hg2]]
                exact ih h
              | none =>
                rw [show unify (n + 1) (.var v) (.var w) (some b)
                    = some (some ((v, .var w) :: b)) by simp [unify, hxy, hg, hg2]] at h
                rw [show unify (n + 1 + 1) (.var v) (.var w) (some b)
                    = some (some ((v, .var w) :: b)) by simp [unify, hxy, hg, hg2]]
                exact h
            | pyNone =>
              rw [show unify (n + 1) (.var v) .pyNone (some b)
                  = some (some ((v, .pyNone) :: b)) by simp [unify, hxy, hg]] at h
              simpa [unify, hxy, hg] using h
            | atom s =>
              rw [show unify (n + 1) (.var v) (.atom s) (some b)
                  = some (some ((v, .atom s) :: b)) by simp [unify, hxy, hg]] at h
              simpa [unify, hxy, hg] using h
            | rel q bs =>
              rw [show unify (n + 1) (.var v) (.rel q bs) (some b)
                  = some (some ((v, .rel q bs) :: b)) by simp [unify, hxy, hg]] at h
              simpa [unify, hxy, hg] using h
        | pyNone =>
          cases y with
          | var w =>
            rw [show unify (n + 1) .pyNone (.var w) (some b)
                = unify n (.var w) .pyNone (some b) by simp [unify, hxy]] at h
            rw [show unify (n + 1 + 1) .pyNone (.var w) (some b)
                = unify (n + 1) (.var w) .pyNone (some b) by simp [unify, hxy]]
            exact ih h
          | pyNone => exact absurd rfl hxy
          | atom s => simp only [unify, hxy] at h ⊢; simpa using h
          | rel q bs => simp only [unify, hxy] at h ⊢; simpa using h
        | atom a =>
          cases y with
          | var w =>
            rw [show unify (n + 1) (.atom a) (.var w) (some b)
                = unify n (.var w) (.atom a) (some b) by simp [unify, hxy]] at h
            rw [show unify (n + 1 + 1) (.atom a) (.var w) (some b)
                = unify (n + 1) (.var w) (.atom a) (some b) by simp [unify, hxy]]
            exact ih h
          | pyNone => simp only [unify, hxy] at h ⊢; simpa using h
          | atom s => simp only [unify, hxy] at h ⊢; simpa [hxy] using h
          | rel q bs => simp only [unify, hxy] at h ⊢; simpa using h
        | rel p as =>
          cases y with
          | var w =>
            rw [show unify (n + 1) (.rel p as) (.var w) (some b)
                = unify n (.var w) (.rel p as) (some b) by simp [unify, hxy]] at h
            rw [show unify (n + 1 + 1) (.rel p as) (.var w) (some b)
                = unify (n + 1) (.var w) (.rel p as) (some b) by simp [unify, hxy]]
            exact ih h
          | pyNone => simp only [unify, hxy] at h ⊢; simpa using h
          | atom s => simp only [unify, hxy] at h ⊢; simpa using h
          | rel q bs =>
            by_cases hpq : p = q
            · subst hpq
              have hab : as ≠ bs := fun hh => hxy (by rw [hh])
              by_cases hlen : as.length = bs.length
              · rw [show unify (n + 1) (.rel p as) (.rel p bs) (some b)
                    = unifyList (unify n) (as.zip bs) (some (some b)) by
                  simp [unify, hab, hlen, unifyList]] at h
                rw [show unify (n + 1 + 1) (.rel p as) (.rel p bs) (some b)
                    = unifyList (unify (n + 1)) (as.zip bs) (some (some b)) by
                  simp [unify, hab, hlen, unifyList]]
                exact unifyList_mono_of (fun a c ob s hs => ih hs) (as.zip bs) _ r h
              · rw [show unify (n + 1) (.rel p as) (.rel p bs) (some b) = some none by
                  simp [unify, hab, hlen]] at h
                rw [show unify (n + 1 + 1) (.rel p as) (.rel p bs) (some b) = some none by
                  simp [unify, hab, hlen]]
                exact h
            · rw [show unify (n + 1) (.rel p as) (.rel q bs) (some b) = some none by
                simp [unify, hxy, hpq]] at h
              rw [show unify (n + 1 + 1) (.rel p as) (.rel q bs) (some b) = some none by
                simp [unify, hxy, hpq]]
              exact h

/-- Monotonicity of `List.mapM` over `Option` under a pointwise-monotone
function. -/
theorem mapM_mono_of {α β : Type} {f g : α → Option β}
    (hfg : ∀ a v, f a = some v → g a = some v) :
    ∀ (l : List α) (vs : List β), l.mapM f = some vs → l.mapM g = some vs := by
  intro l
  induction l with
  | nil => intro vs h; simpa using h
  | cons a l ih =>
    intro vs h
    rw [List.mapM_cons] at h ⊢
    cases hf : f a with
    | none => rw [hf] at h; simp at h
    | some v =>
      rw [hf] at h
      rw [hfg a v hf]
      cases hl : l.mapM f with
      | none => rw [hl] at h; simp at h
      | some vs' =>
        rw [hl] at h
        rw [ih vs' hl]
        exact h

/-- One-step unfolding of `lookupBind` on a lookup call. -/
theorem lookupBind_lk_eq (m : Nat) (v : String) (b : Bindings) :
    lookupBind (m + 1) (.lk v) b =
      (match walkChainAux (b.length + 1) b ((getB b v).getD .pyNone)
          [.var v, (getB b v).getD .pyNone] with
       | none => none
       | some fin =>
         match fin with
         | .rel p args => lookupBind m (.bv (.rel p args)) b
         | t => some t) := rfl

/-- One-step unfolding of `lookupBind` on a bind-vars call. -/
theorem lookupBind_bv_eq (m : Nat) (p : String) (args : List Term) (b : Bindings) :
    lookupBind (m + 1) (.bv (.rel p args)) b =
      (args.mapM (fun (a : Term) =>
        (match a with
         | .var s => if (getB b s).isSome then lookupBind m (.lk s) b else some a
         | a => some a : Option Term))).map (fun bound => Term.rel p bound) := rfl

/-- Fuel monotonicity of `Var.lookup` and `Relation.bind_vars`. -/
theorem lookupBind_mono : ∀ {n : Nat} {c : LBCall} {b : Bindings} {t : Term},
    lookupBind n c b = some t → lookupBind (n + 1) c b = some t := by
  intro n
  induction n with
  | zero => intro c b t h; simp [lookupBind] at h
  | succ n ih =>
    intro c b t h
    cases c with
    | lk v =>
      rw [lookupBind_lk_eq] at h
      rw [lookupBind_lk_eq]
      cases hw : walkChainAux (b.length + 1) b ((getB b v).getD .pyNone)
          [.var v, (getB b v).getD .pyNone] with
      | none => rw [hw] at h; simp at h
      | some fin =>
        rw [hw] at h
        cases fin with
        | rel p args => exact ih h
        | pyNone => exact h
        | atom s => exact h
        | var s => exact h
    | bv t' =>
      cases t' with
      | rel p args =>
        rw [lookupBind_bv_eq] at h
        rw [lookupBind_bv_eq]
        cases hm : args.mapM (fun (a : Term) =>
            (match a with
             | .var s => if (getB b s).isSome then lookupBind n (.lk s) b else some a
             | a => some a : Option Term)) with
        | none => rw [hm] at h; simp at h
        | some bound =>
          have hm2 := mapM_mono_of (f := fun (a : Term) =>
              (match a with
               | .var s => if (getB b s).isSome then lookupBind n (.lk s) b else some a
               | a => some a : Option Term))
            (g := fun (a : Term) =>
              (match a with
               | .var s => if (getB b s).isSome then lookupBind (n + 1) (.lk s) b else some a
               | a => some a : Option Term))
            (by
              intro a v hv
              cases a with
              | var s =>
                simp only at hv ⊢
                by_cases hs : (getB b s).isSome
                · rw [if_pos hs] at hv; rw [if_pos hs]; exact ih hv
                · rw [if_neg hs] at hv; rw [if_neg hs]; exact hv
              | pyNone => exact hv
              | atom s => exact hv
              | rel q cs => exact hv) args bound hm
          rw [hm] at h
          rw [hm2]
          exact h
      | pyNone => simp [lookupBind] at h
      | atom s => simp [lookupBind] at h
      | var s => simp [lookupBind] at h

/-- Fuel monotonicity of `Clause.bind_vars`. -/
theorem clauseBindVars_mono {n : Nat} {c : Clause} {b : Bindings} {c2 : Clause}
    (h : Clause.bindVars n c b = some c2) : Clause.bindVars (n + 1) c b = some c2 := by
  unfold Clause.bindVars at h ⊢
  cases hh : lookupBind n (.bv c.head) b with
  | none => rw [hh] at h; simp at h
  | some hd =>
    rw [hh] at h
    rw [lookupBind_mono hh]
    cases hb : c.body.mapM (fun r => lookupBind n (.bv r) b) with
    | none => rw [hb] at h; simp at h
    | some bd =>
      rw [hb] at h
      rw [mapM_mono_of (fun r v hv => lookupBind_mono hv) c.body bd hb]
      exact h

/-- One-step unfolding of `engine`: `prove` with failed bindings re-fails. -/
theorem engine_prove_none_eq (m : Nat) (goal : Term) (rem : List Term) (db : Db) (ctr : Nat) :
    engine (m + 1) (.prove goal none rem) db ctr = some (none, ctr) := rfl

/-- One-step unfolding of `engine`: `prove` on a relation goal dispatches on
the database lookup. -/
theorem engine_prove_eq (m : Nat) (pred : String) (args : List Term) (env : Bindings)
    (rem : List Term) (db : Db) (ctr : Nat) :
    engine (m + 1) (.prove (.rel pred args) (some env) rem) db ctr =
      (match dbGet db pred with
       | none => some (none, ctr)
       | some [] => some (none, ctr)
       | some (c :: cs) => engine m (.clauses (c :: cs) (.rel pred args) env rem) db ctr) := rfl

/-- One-step unfolding of `engine`: `prove_all` with failed bindings
re-fails. -/
theorem engine_proveAll_none_eq (m : Nat) (gs : List Term) (db : Db) (ctr : Nat) :
    engine (m + 1) (.proveAll gs none) db ctr = some (none, ctr) := rfl

/-- One-step unfolding of `engine`: `prove_all` with no goals succeeds. -/
theorem engine_proveAll_nil_eq (m : Nat) (env : Bindings) (db : Db) (ctr : Nat) :
    engine (m + 1) (.proveAll [] (some env)) db ctr = some (some env, ctr) := rfl

/-- One-step unfolding of `engine`: `prove_all` with goals delegates to
`prove`. -/
theorem engine_proveAll_cons_eq (m : Nat) (g : Term) (rest : List Term) (env : Bindings)
    (db : Db) (ctr : Nat) :
    engine (m + 1) (.proveAll (g :: rest) (some env)) db ctr =
      engine m (.prove g (some env) rest) db ctr := rfl

/-- One-step unfolding of `engine`: an exhausted candidate list fails. -/
theorem engine_clauses_nil_eq (m : Nat) (goal : Term) (env : Bindings) (rem : List Term)
    (db : Db) (ctr : Nat) :
    engine (m + 1) (.clauses [] goal env rem) db ctr = some (none, ctr) := rfl

/-- One-step unfolding of `engine` on the candidate-clause loop. -/
theorem engine_clauses_cons_eq (m : Nat) (c : Clause) (rest : List Clause) (goal : Term)
    (env : Bindings) (rem : List Term) (db : Db) (ctr : Nat) :
    engine (m + 1) (.clauses (c :: rest) goal env rem) db ctr =
      (match unify m goal (c.recursiveRename ctr).head (some env) with
       | none => none
       | some none => engine m (.clauses rest goal env rem) db (ctr + c.getVars.length)
       | some (some unified) =>
         match Clause.bindVars m (c.recursiveRename ctr) unified with
         | none => none
         | some renamed2 =>
           if renamed2.head ∈ renamed2.body then
             engine m (.clauses rest goal env rem) db (ctr + c.getVars.length)
           else
             match engine m (.proveAll (renamed2.body ++ rem) (some unified)) db
                 (ctr + c.getVars.length) with
             | none => none
             | some (none, ctr2) => engine m (.clauses rest goal env rem) db ctr2
             | some (some ext, ctr2) => some (some ext, ctr2)) := rfl

/-- Fuel monotonicity of `unify` between two arbitrary fuels. -/
theorem unify_mono_le {n m : Nat} {x y : Term} {ob : Option Bindings} {r : Option Bindings}
    (hnm : n ≤ m) (h : unify n x y ob = some r) : unify m x y ob = some r := by
  induction m with
  | zero => cases Nat.le_zero.mp hnm; exact h
  | succ m ih =>
    rcases Nat.lt_or_ge n (m + 1) with hlt | hge
    · exact unify_mono (ih (Nat.lt_succ_iff.mp hlt))
    · have : n = m + 1 := Nat.le_antisymm hnm hge
      subst this; exact h

/-- The resolution engine is fuel-monotone: a call that returns keeps
returning the same result (including the same final variable counter) with
more fuel. -/
theorem engine_mono : ∀ {n : Nat} {c : PCall} {db : Db} {ctr : Nat} {r : Option Bindings × Nat},
    engine n c db ctr = some r → engine (n + 1) c db ctr = some r := by
  intro n
  induction n with
  | zero => intro c db ctr r h; simp [engine] at h
  | succ n ih =>
    intro c db ctr r h
    cases c with
    | prove goal ob remaining =>
      cases ob with
      | none => rw [engine_prove_none_eq] at h ⊢; exact h
      | some env =>
        cases goal with
        | rel pred args =>
          rw [engine_prove_eq] at h ⊢
          cases hdb : dbGet db pred with
          | none => rw [hdb] at h; exact h
          | some cs =>
            cases cs with
            | nil => rw [hdb] at h; exact h
            | cons c cs => rw [hdb] at h; exact ih h
        | pyNone => exact Option.noConfusion h
        | atom s => exact Option.noConfusion h
        | var s => exact Option.noConfusion h
    | proveAll gs ob =>
      cases ob with
      | none => rw [engine_proveAll_none_eq] at h ⊢; exact h
      | some env =>
        cases gs with
        | nil => rw [engine_proveAll_nil_eq] at h ⊢; exact h
        | cons g rest =>
          rw [engine_proveAll_cons_eq] at h ⊢
          exact ih h
    | clauses cs goal env remaining =>
      cases cs with
      | nil => rw [engine_clauses_nil_eq] at h ⊢; exact h
      | cons c rest =>
        rw [engine_clauses_cons_eq] at h ⊢
        cases hu : unify n goal (c.recursiveRename ctr).head (some env) with
        | none => rw [hu] at h; exact Option.noConfusion h
        | some ob2 =>
          simp only [hu] at h
          simp only [unify_mono hu]
          cases ob2 with
          | none => exact ih h
          | some unified =>
            cases hbv : Clause.bindVars n (c.recursiveRename ctr) unified with
            | none => simp only [hbv] at h; exact Option.noConfusion h
            | some renamed2 =>
              simp only [hbv] at h
              simp only [clauseBindVars_mono hbv]
              by_cases hmem : renamed2.head ∈ renamed2.body
              · rw [if_pos hmem] at h; rw [if_pos hmem]; exact ih h
              · rw [if_neg hmem] at h; rw [if_neg hmem]
                cases hpa : engine n (.proveAll (renamed2.body ++ remaining) (some unified))
                    db (ctr + c.getVars.length) with
                | none => rw [hpa] at h; exact Option.noConfusion h
                | some pr =>
                  simp only [hpa] at h
                  simp only [ih hpa]
                  rcases pr with ⟨ob3, ctr2⟩
                  cases ob3 with
                  | none => exact ih h
                  | some ext => exact h

/-- The resolution engine is fuel-monotone (two arbitrary fuels). -/
theorem engine_mono_le {n m : Nat} {c : PCall} {db : Db} {ctr : Nat}
    {r : Option Bindings × Nat} (hnm : n ≤ m) (h : engine n c db ctr = some r) :
    engine m c db ctr = some r := by
  induction m with
  | zero => cases Nat.le_zero.mp hnm; exact h
  | succ m ih =>
    rcases Nat.lt_or_ge n (m + 1) with hlt | hge
    · exact engine_mono (ih (Nat.lt_succ_iff.mp hlt))
    · have : n = m + 1 := Nat.le_antisymm hnm hge
      subst this; exact h

/-- One-step unfolding of `unify` on two relations. -/
theorem unify_relrel_eq (m : Nat) (p q : String) (as bs : List Term) (b : Bindings) :
    unify (m + 1) (.rel p as) (.rel q bs) (some b) =
      if Term.rel p as = Term.rel q bs then some (some b)
      else if p ≠ q then some none
      else if as.length ≠ bs.length then some none
      else unifyList (unify m) (as.zip bs) (some (some b)) := by
  by_cases h : Term.rel p as = Term.rel q bs
  · rw [if_pos h, h]; simp [unify]
  · rw [if_neg h]
    by_cases hpq : p = q
    · subst hpq
      have hab : as ≠ bs := fun hh => h (by rw [hh])
      rw [if_neg (fun hc : p ≠ p => hc rfl)]
      by_cases hlen : as.length = bs.length
      · rw [if_neg (fun hc : as.length ≠ bs.length => hc hlen)]
        simp [unify, hab, hlen, unifyList]
      · rw [if_pos hlen]
        simp [unify, hab, hlen]
    · rw [if_pos hpq]
      simp [unify, h, hpq]

end Paip

namespace Paip

/-! ## The claims -/

/-- C7: `prove_all` semantics: an empty goal list trivially succeeds with the
given environment; a non-empty goal list delegates exactly to
`prove(goals[0], env, db, goals[1:])`; and a FAILURE environment propagates
as FAILURE for any goal list. -/
theorem C7_proveAll_semantics :
    (∀ (n : Nat) (env : Bindings) (db : Db) (ctr : Nat),
      proveAll (n + 1) [] (some env) db ctr = some (some env, ctr)) ∧
    (∀ (n : Nat) (g : Term) (rest : List Term) (env : Bindings) (db : Db) (ctr : Nat),
      proveAll (n + 1) (g :: rest) (some env) db ctr = prove n g (some env) db rest ctr) ∧
    (∀ (n : Nat) (gs : List Term) (db : Db) (ctr : Nat),
      proveAll (n + 1) gs none db ctr = some (none, ctr)) :=
  ⟨fun _ _ _ _ => rfl, fun _ _ _ _ _ _ => rfl, fun _ _ _ _ => rfl⟩

/-- C6: two Relations unify only when both predicate names and arities
match: `unify(Relation("p", [x]), Relation("q", [x]), {})` and
`unify(Relation("p", [x]), Relation("p", [x, y]), {})` both return FAILURE,
for any variables `x`, `y`. -/
theorem C6_mismatch_fails (n : Nat) (x y : String) :
    unify (n + 1) (.rel "p" [.var x]) (.rel "q" [.var x]) (some []) = some none ∧
    unify (n + 1) (.rel "p" [.var x]) (.rel "p" [.var x, .var y]) (some []) = some none := by
  constructor
  · have hpq : ¬ (("p" : String) = "q") := by decide
    have hne : ¬ (Term.rel "p" [.var x] = Term.rel "q" [.var x]) :=
      fun hh => hpq (Term.rel.inj hh).1
    rw [unify_relrel_eq, if_neg hne, if_pos hpq]
  · have hne : ¬ (Term.rel "p" [.var x] = Term.rel "p" [.var x, .var y]) := by
      intro hh
      have h2 := (Term.rel.inj hh).2
      have h3 := (List.cons.inj h2).2
      exact List.noConfusion h3
    rw [unify_relrel_eq, if_neg hne, if_neg (fun hc : ("p" : String) ≠ "p" => hc rfl),
      if_pos (by simp : ([Term.var x].length ≠ [Term.var x, Term.var y].length))]

/-- C10: dereferencing a variable that does not appear as a key of the
binding environment returns Python's `None` sentinel, not the variable
itself. -/
theorem C10_lookup_unbound (n : Nat) (v : String) (b : Bindings)
    (h : getB b v = none) : Term.lookup (n + 1) v b = some .pyNone := by
  unfold Term.lookup
  rw [lookupBind_lk_eq, h]
  simp [walkChainAux]

/-- C10 witness: looking up `?x` in a dict that binds only `?y`. -/
theorem C10_witness :
    getB [("y", Term.atom "a")] "x" = none ∧
    Term.lookup 1 "x" [("y", Term.atom "a")] = some .pyNone :=
  ⟨by decide, C10_lookup_unbound 0 "x" [("y", Term.atom "a")] (by decide)⟩

/-- C9: `retrieve(db, pred)` on an absent predicate is not read-only: it
returns an empty clause list and inserts the key `pred`, mapped to an empty
list, into the database, so that a subsequent lookup observes the key as
present. -/
theorem C9_retrieve_inserts (db : Db) (p : String) (h : dbGet db p = none) :
    (retrieve db p).1 = [] ∧ (retrieve db p).2 = db ++ [(p, [])] ∧
    dbGet (retrieve db p).2 p = some [] := by
  have hfind : List.find? (fun e => e.1 == p) db = none := Option.map_eq_none'.mp h
  unfold retrieve
  rw [h]
  refine ⟨rfl, rfl, ?_⟩
  unfold dbGet
  rw [List.find?_append, hfind, Option.none_or]
  simp [List.find?]

/-- C9 witness: retrieving `hates` from a database holding only `likes`. -/
theorem C9_witness :
    dbGet [("likes", ([] : List Clause))] "hates" = none ∧
    (retrieve [("likes", ([] : List Clause))] "hates").1 = [] ∧
    (retrieve [("likes", ([] : List Clause))] "hates").2
      = [("likes", [])] ++ [("hates", [])] ∧
    dbGet (retrieve [("likes", ([] : List Clause))] "hates").2 "hates" = some [] :=
  ⟨by decide, C9_retrieve_inserts [("likes", [])] "hates" (by decide)⟩

/-- C3 counterexample: unification is not symmetric over arbitrary binding
environments, and successful results are not equivalent under
dereferencing.  In the cyclic environment `{?x: ?w, ?w: ?z, ?z: ?w}`,
`unify(?x, ?w, e)` succeeds (returning a copy of `e`) while `unify(?w, ?x,
e)` never returns at any recursion depth; and from the empty environment,
`unify(?x, ?y, {})` yields `{?x: ?y}` while `unify(?y, ?x, {})` yields
`{?y: ?x}`, which dereference `?x` to `?y` and to `None` respectively. -/
theorem C3_counterexample :
    (unify 2 (.var "x") (.var "w")
        (some [("x", .var "w"), ("w", .var "z"), ("z", .var "w")])
      = some (some [("x", .var "w"), ("w", .var "z"), ("z", .var "w")])) ∧
    unifyDiverges (.var "w") (.var "x")
        (some [("x", .var "w"), ("w", .var "z"), ("z", .var "w")]) ∧
    (unify 1 (.var "x") (.var "y") (some []) = some (some [("x", .var "y")])) ∧
    (unify 1 (.var "y") (.var "x") (some []) = some (some [("y", .var "x")])) ∧
    (Term.lookup 1 "x" [("x", .var "y")] = some (.var "y")) ∧
    (Term.lookup 1 "x" [("y", .var "x")] = some .pyNone) ∧
    (some (Term.var "y") ≠ some Term.pyNone) := by
  refine ⟨by decide, ?_, by decide, by decide, by decide, by decide, by decide⟩
  have key : ∀ n,
      unify n (.var "w") (.var "x")
        (some [("x", Term.var "w"), ("w", Term.var "z"), ("z", Term.var "w")]) = none ∧
      unify n (.var "z") (.var "x")
        (some [("x", Term.var "w"), ("w", Term.var "z"), ("z", Term.var "w")]) = none := by
    intro n
    induction n with
    | zero => exact ⟨rfl, rfl⟩
    | succ n ih => exact ⟨ih.2, ih.1⟩
  intro n
  exact (key n).1

/-- C3 (amended): the symmetry that does hold in `unify` is structural:
swapping a non-variable against a variable delegates to the swapped call
exactly; two atoms unify in either order exactly when they are equal,
returning the environment unchanged; and two distinct unbound variables
unify in either order — but with oppositely oriented bindings
(`{v: w}` versus `{w: v}`), which is why the results are only equivalent up
to orientation, not under dereferencing. -/
theorem C3_symmetry_fragments :
    (∀ (n : Nat) (x : Term) (w : String) (b : Bindings),
      (∀ s, x ≠ .var s) →
      unify (n + 1) x (.var w) (some b) = unify n (.var w) x (some b)) ∧
    (∀ (n : Nat) (a1 a2 : String) (b : Bindings),
      (unify (n + 1) (.atom a1) (.atom a2) (some b)
        = if a1 = a2 then some (some b) else some none) ∧
      (unify (n + 1) (.atom a2) (.atom a1) (some b)
        = if a1 = a2 then some (some b) else some none)) ∧
    (∀ (n : Nat) (v w : String) (b : Bindings),
      v ≠ w → getB b v = none → getB b w = none →
      (unify (n + 1) (.var v) (.var w) (some b) = some (some ((v, .var w) :: b))) ∧
      (unify (n + 1) (.var w) (.var v) (some b) = some (some ((w, .var v) :: b)))) := by
  refine ⟨?_, ?_, ?_⟩
  · intro n x w b hx
    have hne : x ≠ .var w := hx w
    cases x with
    | var s => exact absurd rfl (hx s)
    | pyNone => simp [unify, hne]
    | atom s => simp [unify, hne]
    | rel p as => simp [unify, hne]
  · intro n a1 a2 b
    by_cases h12 : a1 = a2
    · subst h12
      rw [if_pos rfl]
      exact ⟨by simp [unify], by simp [unify]⟩
    · rw [if_neg h12]
      have hne : Term.atom a1 ≠ .atom a2 := fun hh => h12 (Term.atom.inj hh)
      have hne2 : Term.atom a2 ≠ .atom a1 := fun hh => h12 (Term.atom.inj hh).symm
      exact ⟨by simp [unify, hne], by simp [unify, hne2]⟩
  · intro n v w b hvw hv hw
    have hne : Term.var v ≠ .var w := fun hh => hvw (Term.var.inj hh)
    have hne2 : Term.var w ≠ .var v := fun hh => hvw (Term.var.inj hh).symm
    exact ⟨by simp [unify, hne, hv, hw], by simp [unify, hne2, hv, hw]⟩

/-- C3 witness: the three fragments at concrete inputs: atom-versus-variable
swap, two distinct atoms, and two distinct unbound variables (with the
oppositely oriented resulting environments). -/
theorem C3_witness :
    (unify 1 (.atom "a") (.var "w") (some ([] : Bindings))
      = unify 0 (.var "w") (.atom "a") (some ([] : Bindings))) ∧
    ((unify 1 (.atom "a") (.atom "b") (some ([] : Bindings))
        = if ("a" : String) = "b" then some (some ([] : Bindings)) else some none) ∧
     (unify 1 (.atom "b") (.atom "a") (some ([] : Bindings))
        = if ("a" : String) = "b" then some (some ([] : Bindings)) else some none)) ∧
    ((unify 1 (.var "x") (.var "y") (some ([] : Bindings))
        = some (some [("x", .var "y")])) ∧
     (unify 1 (.var "y") (.var "x") (some ([] : Bindings))
        = some (some [("y", .var "x")]))) :=
  ⟨C3_symmetry_fragments.1 0 (.atom "a") "w" [] (fun s h => Term.noConfusion h),
   C3_symmetry_fragments.2.1 0 "a" "b" [],
   C3_symmetry_fragments.2.2 0 "x" "y" [] (by decide) rfl rfl⟩

/-- Reflexivity of `storeExtends`. -/
theorem storeExtends_refl (s : Store) : storeExtends s s :=
  ⟨Nat.le_refl _, fun _ _ => rfl⟩

/-- Transitivity of `storeExtends`. -/
theorem storeExtends_trans {s t u : Store} (h1 : storeExtends s t)
    (h2 : storeExtends t u) : storeExtends s u :=
  ⟨Nat.le_trans h1.1 h2.1,
   fun i hi => (h2.2 i (Nat.lt_of_lt_of_le hi h1.1)).trans (h1.2 i hi)⟩

/-- Allocating a new dict preserves all existing dicts. -/
theorem storeExtends_append (s : Store) (b : Bindings) : storeExtends s (s ++ [b]) := by
  refine ⟨by simp, fun i hi => ?_⟩
  rw [List.getElem?_append]
  exact if_pos hi

/-- Allocating a new dict and then mutating it preserves all existing
dicts. -/
theorem storeExtends_set_append (s : Store) (b nb : Bindings) :
    storeExtends s ((s ++ [b]).set s.length nb) := by
  refine ⟨by simp, fun i hi => ?_⟩
  rw [List.getElem?_set_ne (Nat.ne_of_lt hi).symm]
  exact (storeExtends_append s b).2 i hi

/-- The heap argument loop started from a dead accumulator stays dead. -/
theorem foldS_none (f : Term → Term → Option Nat → Store → Option (Option Nat × Store))
    (ps : List (Term × Term)) : ps.foldl (ustepS f) none = none := by
  induction ps with
  | nil => rfl
  | cons p ps ih => simpa [ustepS, List.foldl_cons] using ih

/-- The heap argument loop started from a failed accumulator returns it
unchanged. -/
theorem foldS_noneAcc (f : Term → Term → Option Nat → Store → Option (Option Nat × Store))
    (ps : List (Term × Term)) (st : Store) :
    ps.foldl (ustepS f) (some (none, st)) = some (none, st) := by
  induction ps with
  | nil => rfl
  | cons p ps ih => simpa [ustepS, List.foldl_cons] using ih

/-- The heap argument loop preserves existing dicts and returns only fresh
addresses, given that the step function does. -/
theorem foldS_frame {n : Nat}
    (IH : ∀ (x y : Term) (oa : Option Nat) (s : Store) (r : Option Nat) (s' : Store),
      unifyStore n x y oa s = some (r, s') →
      storeExtends s s' ∧ ∀ ad, r = some ad → s.length ≤ ad) :
    ∀ (ps : List (Term × Term)) (a0 : Nat) (st0 : Store) (r : Option Nat) (s' : Store),
      ps.foldl (ustepS (unifyStore n)) (some (some a0, st0)) = some (r, s') →
      storeExtends st0 s' ∧ (∀ ad, r = some ad → ad = a0 ∨ st0.length ≤ ad) := by
  intro ps
  induction ps with
  | nil =>
    intro a0 st0 r s' h
    cases h
    exact ⟨storeExtends_refl _, fun ad had => Or.inl (Option.some.inj had).symm⟩
  | cons p ps ih2 =>
    intro a0 st0 r s' h
    rw [List.foldl_cons] at h
    have hstep : ustepS (unifyStore n) (some (some a0, st0)) p
        = unifyStore n p.1 p.2 (some a0) st0 := rfl
    rw [hstep] at h
    cases hu : unifyStore n p.1 p.2 (some a0) st0 with
    | none => rw [hu, foldS_none] at h; exact absurd h (by simp)
    | some pr =>
      rcases pr with ⟨r1, s1⟩
      rw [hu] at h
      have hframe := IH p.1 p.2 (some a0) st0 r1 s1 hu
      cases r1 with
      | none =>
        rw [foldS_noneAcc] at h
        cases h
        exact ⟨hframe.1, fun ad had => by simp at had⟩
      | some a1 =>
        have hrest := ih2 a1 s1 r s' h
        refine ⟨storeExtends_trans hframe.1 hrest.1, fun ad had => ?_⟩
        rcases hrest.2 ad had with hada | hada
        · exact Or.inr (hada ▸ hframe.2 a1 rfl)
        · exact Or.inr (Nat.le_trans hframe.1.1 hada)

/-- Frame property: `unify` at the heap level only ever appends fresh dicts and mutates the
fresh copy it allocates on entry: every pre-existing dict is preserved, and
any environment it returns lives at a fresh address. -/
theorem unifyStore_frame :
    ∀ {n : Nat} {x y : Term} {oa : Option Nat} {s : Store} {r : Option Nat} {s' : Store},
      unifyStore n x y oa s = some (r, s') →
      storeExtends s s' ∧ ∀ ad, r = some ad → s.length ≤ ad := by
  intro n
  induction n with
  | zero => intro x y oa s r s' h; simp [unifyStore] at h
  | succ n ih =>
    intro x y oa s r s' h
    cases oa with
    | none =>
      rw [show unifyStore (n + 1) x y none s = some (none, s) from rfl] at h
      cases h
      exact ⟨storeExtends_refl _, fun ad had => by simp at had⟩
    | some a =>
      by_cases hxy : x = y
      · rw [show unifyStore (n + 1) x y (some a) s
            = some (some s.length, s ++ [(s[a]?).getD []]) by simp [unifyStore, hxy]] at h
        cases h
        exact ⟨storeExtends_append _ _, fun ad had => (Option.some.inj had) ▸ Nat.le_refl _⟩
      · have extStep : ∀ (x' y' : Term) (r' : Option Nat) (s'' : Store),
            unifyStore n x' y' (some s.length) (s ++ [(s[a]?).getD []]) = some (r', s'') →
            storeExtends s s'' ∧ ∀ ad, r' = some ad → s.length ≤ ad := by
          intro x' y' r' s'' hrec
          have hf := ih hrec
          refine ⟨storeExtends_trans (storeExtends_append _ _) hf.1, fun ad had => ?_⟩
          have := hf.2 ad had
          simp at this
          omega
        cases x with
        | var v =>
          cases hg : getB ((s[a]?).getD []) v with
          | some t =>
            rw [show unifyStore (n + 1) (.var v) y (some a) s
                = unifyStore n t y (some s.length) (s ++ [(s[a]?).getD []]) by
              simp [unifyStore, hxy, hg]] at h
            exact extStep _ _ _ _ h
          | none =>
            cases y with
            | var w =>
              cases hg2 : getB ((s[a]?).getD []) w with
              | some t2 =>
                rw [show unifyStore (n + 1) (.var v) (.var w) (some a) s
                    = unifyStore n (.var v) t2 (some s.length) (s ++ [(s[a]?).getD []]) by
                  simp [unifyStore, hxy, hg, hg2]] at h
                exact extStep _ _ _ _ h
              | none =>
                rw [show unifyStore (n + 1) (.var v) (.var w) (some a) s
                    = some (some s.length, (s ++ [(s[a]?).getD []]).set s.length
                        ((v, .var w) :: (s[a]?).getD [])) by
                  simp [unifyStore, hxy, hg, hg2]] at h
                cases h
                exact ⟨storeExtends_set_append _ _ _,
                  fun ad had => (Option.some.inj had) ▸ Nat.le_refl _⟩
            | pyNone =>
              rw [show unifyStore (n + 1) (.var v) .pyNone (some a) s
                  = some (some s.length, (s ++ [(s[a]?).getD []]).set s.length
                      ((v, .pyNone) :: (s[a]?).getD [])) by
                simp [unifyStore, hxy, hg]] at h
              cases h
              exact ⟨storeExtends_set_append _ _ _,
                fun ad had => (Option.some.inj had) ▸ Nat.le_refl _⟩
            | atom s2 =>
              rw [show unifyStore (n + 1) (.var v) (.atom s2) (some a) s
                  = some (some s.length, (s ++ [(s[a]?).getD []]).set s.length
                      ((v, .atom s2) :: (s[a]?).getD [])) by
                simp [unifyStore, hxy, hg]] at h
              cases h
              exact ⟨storeExtends_set_append _ _ _,
                fun ad had => (Option.some.inj had) ▸ Nat.le_refl _⟩
            | rel q bs =>
              rw [show unifyStore (n + 1) (.var v) (.rel q bs) (some a) s
                  = some (some s.length, (s ++ [(s[a]?).getD []]).set s.length
                      ((v, .rel q bs) :: (s[a]?).getD [])) by
                simp [unifyStore, hxy, hg]] at h
              cases h
              exact ⟨storeExtends_set_append _ _ _,
                fun ad had => (Option.some.inj had) ▸ Nat.le_refl _⟩
        | pyNone =>
          cases y with
          | var w =>
            rw [show unifyStore (n + 1) .pyNone (.var w) (some a) s
                = unifyStore n (.var w) .pyNone (some s.length) (s ++ [(s[a]?).getD []]) by
              simp [unifyStore, hxy]] at h
            exact extStep _ _ _ _ h
          | pyNone => exact absurd rfl hxy
          | atom s2 =>
            rw [show unifyStore (n + 1) .pyNone (.atom s2) (some a) s
                = some (none, s ++ [(s[a]?).getD []]) by simp [unifyStore, hxy]] at h
            cases h
            exact ⟨storeExtends_append _ _, fun ad had => by simp at had⟩
          | rel q bs =>
            rw [show unifyStore (n + 1) .pyNone (.rel q bs) (some a) s
                = some (none, s ++ [(s[a]?).getD []]) by simp [unifyStore, hxy]] at h
            cases h
            exact ⟨storeExtends_append _ _, fun ad had => by simp at had⟩
        | atom a2 =>
          cases y with
          | var w =>
            rw [show unifyStore (n + 1) (.atom a2) (.var w) (some a) s
                = unifyStore n (.var w) (.atom a2) (some s.length) (s ++ [(s[a]?).getD []]) by
              simp [unifyStore, hxy]] at h
            exact extStep _ _ _ _ h
          | pyNone =>
            rw [show unifyStore (n + 1) (.atom a2) .pyNone (some a) s
                = some (none, s ++ [(s[a]?).getD []]) by simp [unifyStore, hxy]] at h
            cases h
            exact ⟨storeExtends_append _ _, fun ad had => by simp at had⟩
          | atom s2 =>
            rw [show unifyStore (n + 1) (.atom a2) (.atom s2) (some a) s
                = some (none, s ++ [(s[a]?).getD []]) by simp [unifyStore, hxy]] at h
            cases h
            exact ⟨storeExtends_append _ _, fun ad had => by simp at had⟩
          | rel q bs =>
            rw [show unifyStore (n + 1) (.atom a2) (.rel q bs) (some a) s
                = some (none, s ++ [(s[a]?).getD []]) by simp [unifyStore, hxy]] at h
            cases h
            exact ⟨storeExtends_append _ _, fun ad had => by simp at had⟩
        | rel p as =>
          cases y with
          | var w =>
            rw [show unifyStore (n + 1) (.rel p as) (.var w) (some a) s
                = unifyStore n (.var w) (.rel p as) (some s.length) (s ++ [(s[a]?).getD []]) by
              simp [unifyStore, hxy]] at h
            exact extStep _ _ _ _ h
          | pyNone =>
            rw [show unifyStore (n + 1) (.rel p as) .pyNone (some a) s
                = some (none, s ++ [(s[a]?).getD []]) by simp [unifyStore, hxy]] at h
            cases h
            exact ⟨storeExtends_append _ _, fun ad had => by simp at had⟩
          | atom s2 =>
            rw [show unifyStore (n + 1) (.rel p as) (.atom s2) (some a) s
                = some (none, s ++ [(s[a]?).getD []]) by simp [unifyStore, hxy]] at h
            cases h
            exact ⟨storeExtends_append _ _, fun ad had => by simp at had⟩
          | rel q bs =>
            by_cases hpq : p = q
            · subst hpq
              have hab : as ≠ bs := fun hh => hxy (by rw [hh])
              by_cases hlen : as.length = bs.length
              · rw [show unifyStore (n + 1) (.rel p as) (.rel p bs) (some a) s
                    = (as.zip bs).foldl (ustepS (unifyStore n))
                        (some (some s.length, s ++ [(s[a]?).getD []])) by
                  simp [unifyStore, hab, hlen]] at h
                have hfold := foldS_frame (fun x' y' oa' s0 r' s0' hh => ih hh)
                  (as.zip bs) s.length (s ++ [(s[a]?).getD []]) r s' h
                refine ⟨storeExtends_trans (storeExtends_append _ _) hfold.1,
                  fun ad had => ?_⟩
                rcases hfold.2 ad had with hada | hada
                · exact hada ▸ Nat.le_refl _
                · simp at hada; omega
              · rw [show unifyStore (n + 1) (.rel p as) (.rel p bs) (some a) s
                    = some (none, s ++ [(s[a]?).getD []]) by
                  simp [unifyStore, hab, hlen]] at h
                cases h
                exact ⟨storeExtends_append _ _, fun ad had => by simp at had⟩
            · rw [show unifyStore (n + 1) (.rel p as) (.rel q bs) (some a) s
                  = some (none, s ++ [(s[a]?).getD []]) by
                simp [unifyStore, hxy, hpq]] at h
              cases h
              exact ⟨storeExtends_append _ _, fun ad had => by simp at had⟩

/-- C8: `unify` never mutates the environment it is given: after any call
`unify(x, y, e)` — succeeding or failing — the dict at the caller's address
is unchanged (so the caller can backtrack by reusing it), and any
environment returned is a new dict at a fresh address, never the caller's. -/
theorem C8_unify_no_mutation (n : Nat) (x y : Term) (a : Nat) (s : Store)
    (r : Option Nat) (s' : Store) (ha : a < s.length)
    (h : unifyStore n x y (some a) s = some (r, s')) :
    s'[a]? = s[a]? ∧ ∀ ad, r = some ad → ad ≠ a ∧ s.length ≤ ad := by
  have hf := unifyStore_frame h
  refine ⟨hf.1.2 a ha, fun ad had => ?_⟩
  have hle := hf.2 ad had
  exact ⟨fun he => absurd (he ▸ hle) (Nat.not_le_of_lt ha), hle⟩

/-- C8 witness: binding `?x` to `a` starting from the empty dict at address
0: the dict at address 0 is unchanged and the extension is delivered at the
fresh address 1. -/
theorem C8_witness :
    (0 < ([[]] : Store).length) ∧
    (unifyStore 2 (.var "x") (.atom "a") (some 0) [[]]
      = some (some 1, [[], [("x", .atom "a")]])) ∧
    ([[], [("x", Term.atom "a")]] : Store)[0]? = ([[]] : Store)[0]? ∧
    (∀ ad, (some 1 : Option Nat) = some ad → ad ≠ 0 ∧ ([[]] : Store).length ≤ ad) := by
  refine ⟨by decide, by decide, ?_⟩
  exact C8_unify_no_mutation 2 (.var "x") (.atom "a") 0 [[]] (some 1)
    [[], [("x", .atom "a")]] (by decide) (by decide)

/-- C1 counterexample: the claim has stop and continue swapped.  When the
driver answers the `Continue?` prompt affirmatively (wants the search to
continue), `display_bindings` returns FAILURE rather than the result of
`prove_all(remaining, env, db)`; when the driver declines (stop), it
returns the `prove_all` result rather than FAILURE. -/
theorem C1_counterexample :
    displayBindings 1 "y" [] [] [] [] 0 = some (none, 0) ∧
    proveAll 1 [] (some []) ([] : Db) 0 = some (some [], 0) ∧
    displayBindings 1 "y" [] [] [] [] 0 ≠ proveAll 1 [] (some []) ([] : Db) 0 ∧
    displayBindings 1 "no" [] [] [] [] 0 = proveAll 1 [] (some []) ([] : Db) 0 := by
  refine ⟨by decide, by decide, by decide, by decide⟩

/-- C1 (amended): once the reporting lookups return, `display_bindings`
returns FAILURE exactly when the driver's stripped, lowercased answer is
`yes` or `y` (continue searching — the deliberate failure that forces the
Resolution Engine to backtrack past the reporting step), and for any other
answer (stop) it calls `prove_all(remaining, env, db)` itself and returns
that result. -/
theorem C1_display_bindings (n : Nat) (resp : String) (vars : List Term)
    (b : Bindings) (db : Db) (rem : List Term) (ctr : Nat) (vs : List Term)
    (hlk : vars.mapM (fun (v : Term) =>
        (match v with
         | .var s => Term.lookup n s b
         | _ => none : Option Term)) = some vs) :
    (pyLower (pyStrip resp) = "yes" ∨ pyLower (pyStrip resp) = "y" →
      displayBindings n resp vars b db rem ctr = some (none, ctr)) ∧
    (pyLower (pyStrip resp) ≠ "yes" ∧ pyLower (pyStrip resp) ≠ "y" →
      displayBindings n resp vars b db rem ctr = proveAll n rem (some b) db ctr) := by
  unfold displayBindings
  rw [hlk]
  constructor
  · intro hyes
    have hcond : (pyLower (pyStrip resp) == "yes" || pyLower (pyStrip resp) == "y") = true := by
      rcases hyes with h | h <;> simp [h]
    rw [if_pos hcond]
  · intro hno
    have hcond : ¬ ((pyLower (pyStrip resp) == "yes" || pyLower (pyStrip resp) == "y") = true) := by
      simp [hno.1, hno.2]
    rw [if_neg hcond]

/-- C1 witness: with answer `y` and no variables to report, the primitive
returns FAILURE. -/
theorem C1_witness :
    (([] : List Term).mapM (fun (v : Term) =>
        (match v with
         | .var s => Term.lookup 1 s []
         | _ => none : Option Term)) = some []) ∧
    displayBindings 1 "y" [] [] [] [] 0 = some (none, 0) :=
  ⟨rfl, (C1_display_bindings 1 "y" [] [] [] [] 0 [] rfl).1 (Or.inr (by decide))⟩

/-- C2 counterexample: dereferencing is not total.  For the environment
`{?x: p(?x)}` — producible by `unify(?x, p(?x), {})`, since there is no
occurs check — `Var.lookup` recurses through `Relation.bind_vars` forever:
at every recursion depth it fails to return. -/
theorem C2_counterexample :
    lookupDiverges "x" [("x", .rel "p" [.var "x"])] := by
  have key : ∀ n, lookupBind n (.lk "x") [("x", Term.rel "p" [.var "x"])] = none ∧
      lookupBind n (.bv (.rel "p" [.var "x"])) [("x", Term.rel "p" [.var "x"])] = none := by
    intro n
    induction n with
    | zero => exact ⟨rfl, rfl⟩
    | succ n ih =>
      refine ⟨?_, ?_⟩
      · exact ih.2
      · rw [lookupBind_bv_eq]
        simp only [List.mapM_cons, List.mapM_nil]
        have hx : (getB [("x", Term.rel "p" [.var "x"])] "x").isSome = true := by decide
        simp [hx, ih.1]
  intro n
  exact (key n).1

/-- C2 (amended): the cycle-guarded `while` loop of `Var.lookup` always
terminates (a variable transitively bound to itself through variable
bindings is detected), and whenever the value the chain walk reaches is not
a Relation, `Var.lookup` returns it — the last distinct term encountered.
The excluded case, a final Relation binding expanded via
`Relation.bind_vars`, is where C2's counterexample diverges. -/
theorem C2_lookup_terminates :
    (∀ (b : Bindings) (binding : Term) (enc : List Term),
      ∃ t, walkChainAux (b.length + 1) b binding enc = some t) ∧
    (∀ (v : String) (b : Bindings) (fin : Term),
      walkChainAux (b.length + 1) b ((getB b v).getD .pyNone)
          [.var v, (getB b v).getD .pyNone] = some fin →
      (∀ p args, fin ≠ .rel p args) →
      ∀ n, Term.lookup (n + 1) v b = some fin) := by
  refine ⟨walkChain_total, ?_⟩
  intro v b fin hw hnotrel n
  unfold Term.lookup
  rw [lookupBind_lk_eq, hw]
  cases fin with
  | rel p args => exact absurd rfl (hnotrel p args)
  | pyNone => rfl
  | atom s => rfl
  | var s => rfl

/-- C2 witness: in the cyclic environment `{?x: ?y, ?y: ?x}` the chain walk
stops at the last distinct term `?y`, and `Var.lookup` returns it. -/
theorem C2_witness :
    (walkChainAux ([("x", Term.var "y"), ("y", Term.var "x")].length + 1)
        [("x", Term.var "y"), ("y", Term.var "x")]
        ((getB [("x", Term.var "y"), ("y", Term.var "x")] "x").getD .pyNone)
        [.var "x", (getB [("x", Term.var "y"), ("y", Term.var "x")] "x").getD .pyNone]
      = some (.var "y")) ∧
    Term.lookup 1 "x" [("x", Term.var "y"), ("y", Term.var "x")] = some (.var "y") :=
  ⟨by decide,
    C2_lookup_terminates.2 "x" [("x", Term.var "y"), ("y", Term.var "x")] (.var "y")
      (by decide) (fun p args h => Term.noConfusion h) 0⟩

/-- Renaming a fact (empty body) leaves the body empty. -/
theorem recursiveRename_body_nil {c : Clause} (h : c.body = []) (ctr : Nat) :
    (c.recursiveRename ctr).body = [] := by
  simp [Clause.recursiveRename, Clause.renameVars, h, Term.renameVarsArgs]

/-- Substituting bindings into a fact (empty body) leaves the body empty. -/
theorem bindVars_body_nil {k : Nat} {c : Clause} {u : Bindings} {bc : Clause}
    (hb : c.body = []) (h : Clause.bindVars k c u = some bc) : bc.body = [] := by
  unfold Clause.bindVars at h
  rw [hb] at h
  cases hh : lookupBind k (.bv c.head) u with
  | none => rw [hh] at h; exact absurd h (by simp)
  | some hd =>
    rw [hh] at h
    have h2 : some (Clause.mk hd []) = some bc := h
    cases h2
    rfl

/-- C4 (amended): clause-order backtracking with facts: when the database
maps the goal's predicate to two facts, the first renamed head fails to
unify with the goal, the second renamed head unifies producing `u`, and the
substitution step on the matched fact returns, `prove` still succeeds —
after the first candidate fails the engine tries the next candidate in
insertion order and returns `u`. -/
theorem C4_backtracking_facts (n : Nat) (p : String) (args : List Term) (env : Bindings)
    (db : Db) (ctr : Nat) (c1 c2 : Clause) (u : Bindings) (bc : Clause)
    (hdb : dbGet db p = some [c1, c2])
    (hb2 : c2.body = [])
    (h1 : unify (n + 1) (.rel p args) (c1.recursiveRename ctr).head (some env) = some none)
    (h2 : unify (n + 1) (.rel p args)
        (c2.recursiveRename (ctr + c1.getVars.length)).head (some env) = some (some u))
    (hbv : Clause.bindVars (n + 1) (c2.recursiveRename (ctr + c1.getVars.length)) u
        = some bc) :
    prove (n + 4) (.rel p args) (some env) db [] ctr
      = some (some u, ctr + c1.getVars.length + c2.getVars.length) := by
  unfold prove
  show engine (n + 3 + 1) (.prove (.rel p args) (some env) []) db ctr = _
  rw [engine_prove_eq, hdb]
  show engine (n + 2 + 1) (.clauses [c1, c2] (.rel p args) env []) db ctr = _
  rw [engine_clauses_cons_eq]
  have h1' : unify (n + 2) (.rel p args) (c1.recursiveRename ctr).head (some env)
      = some none := unify_mono h1
  simp only [h1']
  show engine (n + 1 + 1) (.clauses [c2] (.rel p args) env [])
      db (ctr + c1.getVars.length) = _
  rw [engine_clauses_cons_eq]
  simp only [h2, hbv]
  have hbody : bc.body = [] := bindVars_body_nil (recursiveRename_body_nil hb2 _) hbv
  have hmem : ¬ (bc.head ∈ bc.body) := by rw [hbody]; simp
  rw [if_neg hmem, hbody]
  show (match engine (n + 1) (.proveAll ([] ++ []) (some u)) db
      (ctr + c1.getVars.length + c2.getVars.length) with
    | none => none
    | some (none, ctr2) =>
      engine (n + 1) (.clauses [] (.rel p args) env []) db ctr2
    | some (some ext, ctr2) => some (some ext, ctr2)) = _
  rw [show ([] : List Term) ++ [] = [] from rfl, engine_proveAll_nil_eq]

/-- C4 counterexample: the claim as stated fails when the second clause is a
rule with an unprovable body.  With clauses `p(b).` and `p(a) :- q(a).`,
only the second head unifies with the goal `p(a)`, yet `prove(p(a), {}, db,
[])` fails: it converges to FAILURE at fuel 8, and by fuel-monotonicity it
can never succeed at any recursion depth. -/
theorem C4_counterexample :
    (unify 2 (Term.rel "p" [.atom "a"])
        ((Clause.mk (.rel "p" [.atom "b"]) []).recursiveRename 0).head (some [])
      = some none) ∧
    (unify 2 (Term.rel "p" [.atom "a"])
        ((Clause.mk (.rel "p" [.atom "a"]) [.rel "q" [.atom "a"]]).recursiveRename 0).head
        (some [])
      = some (some [])) ∧
    (prove 8 (.rel "p" [.atom "a"]) (some [])
        [("p", [Clause.mk (.rel "p" [.atom "b"]) [],
                Clause.mk (.rel "p" [.atom "a"]) [.rel "q" [.atom "a"]]])] [] 0
      = some (none, 0)) ∧
    proveCannotSucceed (.rel "p" [.atom "a"]) (some [])
        [("p", [Clause.mk (.rel "p" [.atom "b"]) [],
                Clause.mk (.rel "p" [.atom "a"]) [.rel "q" [.atom "a"]]])] [] 0 := by
  have h8 : prove 8 (.rel "p" [.atom "a"]) (some [])
      [("p", [Clause.mk (.rel "p" [.atom "b"]) [],
              Clause.mk (.rel "p" [.atom "a"]) [.rel "q" [.atom "a"]]])] [] 0
      = some (none, 0) := by decide
  refine ⟨by decide, by decide, h8, ?_⟩
  intro n r c h
  unfold prove at h h8
  rcases Nat.le_total n 8 with hle | hge
  · have hup := engine_mono_le hle h
    rw [h8] at hup
    simp at hup
  · have hup := engine_mono_le hge h8
    rw [h] at hup
    simp at hup

/-- C4 witness for the amended theorem: facts `p(b).` and `p(a).` with goal
`p(a)`: the first head fails to unify, the second unifies with the empty
unifier, and `prove` succeeds. -/
theorem C4_witness :
    (dbGet [("p", [Clause.mk (.rel "p" [.atom "b"]) [], Clause.mk (.rel "p" [.atom "a"]) []])] "p"
      = some [Clause.mk (.rel "p" [.atom "b"]) [], Clause.mk (.rel "p" [.atom "a"]) []]) ∧
    ((Clause.mk (Term.rel "p" [.atom "a"]) []).body = []) ∧
    (unify 2 (Term.rel "p" [.atom "a"])
        ((Clause.mk (.rel "p" [.atom "b"]) []).recursiveRename 0).head (some [])
      = some none) ∧
    (unify 2 (Term.rel "p" [.atom "a"])
        ((Clause.mk (.rel "p" [.atom "a"]) []).recursiveRename
          (0 + (Clause.mk (Term.rel "p" [.atom "b"]) []).getVars.length)).head (some [])
      = some (some [])) ∧
    (Clause.bindVars 2
        ((Clause.mk (.rel "p" [.atom "a"]) []).recursiveRename
          (0 + (Clause.mk (Term.rel "p" [.atom "b"]) []).getVars.length)) []
      = some (Clause.mk (.rel "p" [.atom "a"]) [])) ∧
    (prove 5 (.rel "p" [.atom "a"]) (some [])
        [("p", [Clause.mk (.rel "p" [.atom "b"]) [], Clause.mk (.rel "p" [.atom "a"]) []])] [] 0
      = some (some [],
          0 + (Clause.mk (Term.rel "p" [.atom "b"]) []).getVars.length
            + (Clause.mk (Term.rel "p" [.atom "a"]) []).getVars.length)) :=
  ⟨by decide, rfl, by decide, by decide, by decide,
    C4_backtracking_facts 1 "p" [.atom "a"] []
      [("p", [Clause.mk (.rel "p" [.atom "b"]) [], Clause.mk (.rel "p" [.atom "a"]) []])] 0
      (Clause.mk (.rel "p" [.atom "b"]) []) (Clause.mk (.rel "p" [.atom "a"]) [])
      [] (Clause.mk (.rel "p" [.atom "a"]) [])
      (by decide) rfl (by decide) (by decide) (by decide)⟩

/-- C5: the self-reference guard in `prove`: when a candidate clause's
renamed head unifies with the goal but, after substituting the unified
bindings into the renamed clause, its head occurs unchanged in its own
body, the clause is skipped — the engine moves on to the next candidate
(with the variable counter advanced by the rename) instead of recursing on
the clause's body. -/
theorem C5_self_reference_guard (n : Nat) (cs : List Clause) (c : Clause) (goal : Term)
    (env : Bindings) (db : Db) (rem : List Term) (ctr : Nat) (u : Bindings) (bc : Clause)
    (hu : unify n goal (c.recursiveRename ctr).head (some env) = some (some u))
    (hb : Clause.bindVars n (c.recursiveRename ctr) u = some bc)
    (hmem : bc.head ∈ bc.body) :
    proveClauses (n + 1) (c :: cs) goal env db rem ctr
      = proveClauses n cs goal env db rem (ctr + c.getVars.length) := by
  unfold proveClauses
  rw [engine_clauses_cons_eq]
  simp only [hu, hb, if_pos hmem]

/-- C5 witness: the degenerate clause `p(?x) :- p(?x)` against goal `p(a)`:
its renamed head unifies, substitution makes head and body both `p(a)`, and
the clause is skipped. -/
theorem C5_witness :
    unify 3 (Term.rel "p" [.atom "a"])
        ((Clause.mk (.rel "p" [.var "x"]) [.rel "p" [.var "x"]]).recursiveRename 0).head
        (some []) = some (some [("var0", .atom "a")]) ∧
    Clause.bindVars 3
        ((Clause.mk (.rel "p" [.var "x"]) [.rel "p" [.var "x"]]).recursiveRename 0)
        [("var0", .atom "a")]
      = some (Clause.mk (.rel "p" [.atom "a"]) [.rel "p" [.atom "a"]]) ∧
    (Clause.mk (Term.rel "p" [.atom "a"]) [.rel "p" [.atom "a"]]).head
      ∈ (Clause.mk (Term.rel "p" [.atom "a"]) [.rel "p" [.atom "a"]]).body ∧
    proveClauses 4 [Clause.mk (.rel "p" [.var "x"]) [.rel "p" [.var "x"]]]
        (.rel "p" [.atom "a"]) [] [("p", [Clause.mk (.rel "p" [.var "x"]) [.rel "p" [.var "x"]]])] [] 0
      = proveClauses 3 [] (.rel "p" [.atom "a"]) []
          [("p", [Clause.mk (.rel "p" [.var "x"]) [.rel "p" [.var "x"]]])] [] 1 :=
  ⟨by decide, by decide, by decide,
    C5_self_reference_guard 3 [] (Clause.mk (.rel "p" [.var "x"]) [.rel "p" [.var "x"]])
      (.rel "p" [.atom "a"]) []
      [("p", [Clause.mk (.rel "p" [.var "x"]) [.rel "p" [.var "x"]]])] [] 0
      [("var0", .atom "a")]
      (Clause.mk (.rel "p" [.atom "a"]) [.rel "p" [.atom "a"]])
      (by decide) (by decide) (by decide)⟩

end Paip
